import Mathlib

/-!
Verification development for the `fetchAndParseLevelData` HTML record
extractor of the gd-difficulty-visualization repository.

The embedding models the newer parser variant (the one that bounds a
section at any h1-h6 heading, removes from commentary exactly the anchors
whose hrefs were collected from the difficulty element, and resolves
footnotes).  DOM trees are modelled by the inductive `Html` type; element
tag names are stored in their canonical lowercase form (the HTML parser
lowercases tag names; the source's uppercase `tagName` tests are modelled
on the lowercase names).  JavaScript numbers produced by `parseFloat` are
modelled as `Option ℚ` with `none` playing the role of `NaN`; the decimal
strings the parser feeds to `parseFloat` denote exact decimal values, so
rationals give them exact decimal semantics (IEEE rounding is not
modelled).  JavaScript regular-expression searches are modelled by
explicit leftmost-match scanners; for the patterns used by the source the
greedy character-class and whitespace quantifiers never need backtracking
against the following literal (the character sets are disjoint), so
maximal-munch scanning is exact, except for one documented backtracking
case in the heading separator which is modelled explicitly.
-/

namespace GDViz

/-- The JavaScript `\s` / `String.prototype.trim` whitespace characters
(ASCII whitespace, NBSP, BOM, and each Unicode space separator,
enumerated). -/
def jsWSChars : List Char :=
  [' ', '\t', '\n', '\r', '\x0b', '\x0c',
   ' ', ' ',
   ' ', ' ', ' ', ' ', ' ', ' ',
   ' ', ' ', ' ', ' ', ' ',
   ' ', ' ', ' ', ' ', '　', '﻿']

/-- Membership in the JS whitespace class. -/
def jsIsWS (c : Char) : Bool := jsWSChars.contains c

/-- JavaScript line terminators, which `.` does not match. -/
def isLineTerm (c : Char) : Bool :=
  c = '\n' || c = '\r' || c = ' ' || c = ' '

/-- The character class `[\d,.]` of the difficulty regex. -/
def isNumCh (c : Char) : Bool := c.isDigit || c = ',' || c = '.'

/-- Drop trailing JS whitespace. -/
def dropTrailingWS (l : List Char) : List Char :=
  (l.reverse.dropWhile jsIsWS).reverse

/-- `String.prototype.trim` on a character list. -/
def jsTrimL (l : List Char) : List Char :=
  dropTrailingWS (l.dropWhile jsIsWS)

/-- `String.prototype.trim`. -/
def jsTrim (s : String) : String := String.mk (jsTrimL s.data)

/-- `String.prototype.toLowerCase` (ASCII case mapping, which is all the
source's patterns need). -/
def lowerStr (s : String) : String := String.mk (s.data.map Char.toLower)

/-- Case-insensitive literal matching at the head of `l`; the needle is
given in lowercase.  Returns the remainder after the consumed prefix. -/
def matchCI : List Char → List Char → Option (List Char)
  | [], l => some l
  | _ :: _, [] => none
  | n :: ns, c :: cs => if n = c.toLower then matchCI ns cs else none

/-- `String.prototype.includes` on character lists. -/
def hasSub (needle : List Char) : List Char → Bool
  | [] => needle.isEmpty
  | c :: cs => needle.isPrefixOf (c :: cs) || hasSub needle cs

/-- `haystack.includes(needle)` for strings. -/
def strContains (hay needle : String) : Bool := hasSub needle.data hay.data

/-- `s.startsWith(pre)` via the character lists. -/
def strStarts (s pre : String) : Bool := pre.data.isPrefixOf s.data

/-- `href.slice(1)` via the character list. -/
def strTail (s : String) : String := String.mk (s.data.drop 1)

/-- Attempt the pattern `/Difficulty\s+value:/i` anchored at the head of
`l`; returns the remainder after the consumed `:`.  The greedy `\s+`
needs no backtracking because `v` is not whitespace. -/
def tryLabelAt (l : List Char) : Option (List Char) :=
  match matchCI "difficulty".data l with
  | none => none
  | some r1 =>
    match r1 with
    | [] => none
    | c :: rest =>
      if jsIsWS c then matchCI "value:".data (rest.dropWhile jsIsWS)
      else none

/-- The search `text.match(/Difficulty\s+value:/i) !== null`. -/
def labelSearch : List Char → Bool
  | [] => false
  | c :: cs => (tryLabelAt (c :: cs)).isSome || labelSearch cs

/-- Attempt the full pattern `/Difficulty\s+value:\s*([\d,.]+)/i` anchored
at the head of `l`; returns the capture group.  The greedy `\s*` and
`[\d,.]+` need no backtracking because digits, `,` and `.` are not
whitespace. -/
def tryDiffAt (l : List Char) : Option (List Char) :=
  match tryLabelAt l with
  | none => none
  | some r2 =>
    let r3 := r2.dropWhile jsIsWS
    let cap := r3.takeWhile isNumCh
    if cap.isEmpty then none else some cap

/-- The leftmost-match search for the full difficulty pattern, returning
the capture group `match[1]`. -/
def diffCapture : List Char → Option (List Char)
  | [] => none
  | c :: cs =>
    match tryDiffAt (c :: cs) with
    | some cap => some cap
    | none => diffCapture cs

/-- Numeric value of a digit list (most significant first). -/
def digitsToNat : List Char → Nat
  | [] => 0
  | c :: cs => (c.toNat - '0'.toNat) * 10 ^ cs.length + digitsToNat cs

/-- JavaScript numbers: `none` models `NaN`. -/
abbrev JsNum := Option ℚ

/-- `parseFloat` on the comma-stripped capture of the difficulty regex
(a string of decimal digits and dots): the longest prefix of the form
`digits`, `digits.digits`, `.digits` or `digits.` is converted, exact
decimal semantics; no such prefix yields `NaN` (`none`). -/
def jsParseFloat (l : List Char) : JsNum :=
  let intPart := l.takeWhile Char.isDigit
  let r := l.drop intPart.length
  match r with
  | '.' :: r2 =>
    let frac := r2.takeWhile Char.isDigit
    if intPart.isEmpty && frac.isEmpty then none
    else some (mkRat (digitsToNat intPart * 10 ^ frac.length + digitsToNat frac) (10 ^ frac.length))
  | _ => if intPart.isEmpty then none else some (mkRat (digitsToNat intPart) 1)

/-- `capture.replace(/,/g, '')`. -/
def stripCommas (l : List Char) : List Char := l.filter (fun c => c != ',')

/-- Attempt the separator `(?:\s+by\s+|\s+-\s+)` of
`/^(.+?)(?:\s+by\s+|\s+-\s+)(.+)$/i` at the head of `l`.  Returns the
whitespace run consumed after the keyword together with the remainder
after that run; the caller resolves the one real backtracking case (the
trailing `\s+` giving a character back to `(.+)` when the maximal-munch
remainder is empty). -/
def trySep (l : List Char) : Option (List Char × List Char) :=
  let ws1 := l.takeWhile jsIsWS
  if ws1.isEmpty then none
  else
    let r1 := l.drop ws1.length
    let afterKw : Option (List Char) :=
      match matchCI "by".data r1 with
      | some r => some r
      | none =>
        match r1 with
        | '-' :: r => some r
        | _ => none
    match afterKw with
    | none => none
    | some r2 =>
      let ws2 := r2.takeWhile jsIsWS
      if ws2.isEmpty then none else some (ws2, r2.drop ws2.length)

/-- Decide whether the separator matched at this position completes the
whole regex, resolving the backtracking of the trailing `\s+` against the
greedy `(.+)$`: the remainder must be nonempty and line-terminator-free;
when the maximal-munch remainder is empty the engine gives the last
whitespace character back to `(.+)` provided at least two whitespace
characters were consumed and the last is not a line terminator. -/
def sepComplete (ws2 rest : List Char) : Option (List Char) :=
  if rest.isEmpty then
    match ws2.getLast? with
    | some c => if 2 ≤ ws2.length && !isLineTerm c then some [c] else none
    | none => none
  else if rest.any isLineTerm then none
  else some rest

/-- The lazy-prefix scan of `/^(.+?)(?:\s+by\s+|\s+-\s+)(.+)$/i`: try
separator positions left to right after a nonempty, line-break-free
prefix; `acc` is the reversed prefix so far.  Returns `(match[1],
match[2])`. -/
def findSepAux : List Char → List Char → Option (List Char × List Char)
  | _, [] => none
  | acc, c :: t =>
    if isLineTerm c then none
    else
      match trySep t with
      | some (ws2, rest) =>
        match sepComplete ws2 rest with
        | some grp2 => some ((c :: acc).reverse, grp2)
        | none => findSepAux (c :: acc) t
      | none => findSepAux (c :: acc) t

/-- `levelNameAndPublisher.match(/^(.+?)(?:\s+by\s+|\s+-\s+)(.+)$/i)`
followed by the source's `.trim()` on the two groups; no match yields the
whole string and an empty publisher. -/
def splitNamePublisher (levelNameAndPublisher : String) : String × String :=
  match findSepAux [] levelNameAndPublisher.data with
  | some (g1, g2) => (jsTrim (String.mk g1), jsTrim (String.mk g2))
  | none => (levelNameAndPublisher, "")

/-- A DOM node: a text node or an element with a tag (canonical lowercase
form), an attribute list (document order, first occurrence wins for
`getAttribute`) and child nodes.  Comment and processing-instruction
nodes, which the source skips by its `nodeType` test, are not modelled. -/
inductive Html where
  | text : String → Html
  | elem : String → List (String × String) → List Html → Html

/-- `getAttribute` on an attribute list: first binding wins. -/
def getAttr (attrs : List (String × String)) (nm : String) : Option String :=
  (attrs.find? (fun p => p.1 == nm)).map (fun p => p.2)

/-- `element.getAttribute(nm) || ''`. -/
def attrOr (attrs : List (String × String)) (nm : String) : String :=
  (getAttr attrs nm).getD ""

/-- The `href` of an anchor element (empty for text nodes). -/
def hrefOf : Html → String
  | .text _ => ""
  | .elem _ attrs _ => attrOr attrs "href"

mutual

/-- `node.textContent`: concatenation of all descendant text. -/
def textContentN : Html → String
  | .text s => s
  | .elem _ _ cs => textContentL cs

/-- `textContent` of a node list. -/
def textContentL : List Html → String
  | [] => ""
  | n :: rest => textContentN n ++ textContentL rest

end

mutual

/-- The descendant elements with tag `a` of a node, in document order,
including the node itself (used beneath `anchorsOf`). -/
def anchorsN : Html → List Html
  | .text _ => []
  | .elem t attrs cs => (if t == "a" then [.elem t attrs cs] else []) ++ anchorsL cs

/-- Anchor elements occurring in a node list, in document order. -/
def anchorsL : List Html → List Html
  | [] => []
  | n :: rest => anchorsN n ++ anchorsL rest

end

/-- `element.querySelectorAll('a')`: descendant anchors only, the element
itself is never selected. -/
def anchorsOf : Html → List Html
  | .text _ => []
  | .elem _ _ cs => anchorsL cs

mutual

/-- Whether a node is or contains an `img`, `blockquote`, `ul` or `ol`
element. -/
def hasKeepN : Html → Bool
  | .text _ => false
  | .elem t _ cs =>
    t == "img" || t == "blockquote" || t == "ul" || t == "ol" || hasKeepL cs

/-- `hasKeepN` over a node list. -/
def hasKeepL : List Html → Bool
  | [] => false
  | n :: rest => hasKeepN n || hasKeepL rest

end

/-- `clone.querySelector('img, blockquote, ul, ol') !== null`: descendant
search, the element itself is not considered. -/
def hasKeepable : Html → Bool
  | .text _ => false
  | .elem _ _ cs => hasKeepL cs

/-- Whether a node is an anchor whose nonempty `href` is in the excluded
set (the removal test of the source's `if (href &&
excludedHrefs.has(href)) link.remove()`). -/
def isExcludedAnchor (ex : List String) : Html → Bool
  | .text _ => false
  | .elem t attrs _ =>
    t == "a" && attrOr attrs "href" != "" && ex.contains (attrOr attrs "href")

mutual

/-- Anchor removal inside one kept node. -/
def cleanN (ex : List String) : Html → Html
  | .text s => .text s
  | .elem t attrs cs => .elem t attrs (cleanL ex cs)

/-- Remove from a node list every anchor whose nonempty `href` is in the
excluded set, at every depth (`clone.querySelectorAll('a')` snapshots all
of them; ones nested in removed anchors vanish with their ancestor). -/
def cleanL (ex : List String) : List Html → List Html
  | [] => []
  | n :: rest =>
    if isExcludedAnchor ex n then cleanL ex rest
    else cleanN ex n :: cleanL ex rest

end


/-- Serialization escape for text nodes. -/
def escText (s : String) : String :=
  String.join (s.data.map (fun c =>
    if c = '&' then "&amp;" else if c = '<' then "&lt;"
    else if c = '>' then "&gt;" else String.mk [c]))

/-- Serialization escape for attribute values. -/
def escAttr (s : String) : String :=
  String.join (s.data.map (fun c =>
    if c = '&' then "&amp;" else if c = '"' then "&quot;" else String.mk [c]))

mutual

/-- `outerHTML` (fragment serialization; the documents handled here use
no void elements among the serialized commentary, so every element is
serialized with an explicit end tag). -/
def outerHTML : Html → String
  | .text s => escText s
  | .elem t attrs cs =>
    "<" ++ t ++
      String.join (attrs.map (fun p => " " ++ p.1 ++ "=\"" ++ escAttr p.2 ++ "\"")) ++
      ">" ++ innerHTMLL cs ++ "</" ++ t ++ ">"

/-- `innerHTML` of a child list. -/
def innerHTMLL : List Html → String
  | [] => ""
  | n :: rest => outerHTML n ++ innerHTMLL rest

end

/-- `element.innerHTML`. -/
def innerHTML : Html → String
  | .text s => escText s
  | .elem _ _ cs => innerHTMLL cs

/-- The `/^H[1-6]$/.test(element.tagName)` check (lowercase canonical
tag names). -/
def isHeadingTag (t : String) : Bool :=
  t == "h1" || t == "h2" || t == "h3" || t == "h4" || t == "h5" || t == "h6"

/-- Whether a node is a heading element. -/
def isHeadingNode : Html → Bool
  | .text _ => false
  | .elem t _ _ => isHeadingTag t

/-- Whether a node is an element (`nodeType === Node.ELEMENT_NODE`). -/
def isElemNode : Html → Bool
  | .text _ => false
  | .elem _ _ _ => true

/-- The record produced for one level (the source's `LevelData`
interface); `difficulty` is a JS number, `youtubeUrl`/`gdBrowserUrl` are
`null` (`none`) until a link of the category is assigned. -/
structure LevelData where
  name : String
  publisher : String
  difficulty : JsNum
  youtubeUrl : Option String
  gdBrowserUrl : Option String
  commentary : String
deriving DecidableEq

/-- The sibling walk collecting `allContent`: skip non-element siblings,
stop (exclusively) at the first heading element — the source's
`element === nextH3 || /^H[1-6]$/.test(element.tagName)` break, whose
first disjunct is subsumed by the second because `nextH3` is itself an
`h3`. -/
def collectContent : List Html → List Html
  | [] => []
  | .text _ :: rest => collectContent rest
  | .elem t attrs cs :: rest =>
    if isHeadingTag t then []
    else .elem t attrs cs :: collectContent rest

/-- The difficulty scan: first element of `allContent` whose
`textContent` matches the full pattern wins; yields
`parseFloat(match[1].replace(/,/g, ''))` and `difficultyElementIndex`. -/
def findDifficultyAux : List Html → Nat → Option (JsNum × Nat)
  | [], _ => none
  | e :: rest, i =>
    match diffCapture (textContentN e).data with
    | some cap => some (jsParseFloat (stripCommas cap), i)
    | none => findDifficultyAux rest (i + 1)

/-- Category test of the link scan, YouTube branch: href contains
`youtube.com` or `youtu.be`, or the lowercased link text contains
`youtube`. -/
def isYoutubeLink (href ltext : String) : Bool :=
  strContains href "youtube.com" || strContains href "youtu.be" ||
  strContains ltext "youtube"

/-- Category test of the link scan, GDBrowser branch (tested only when
the YouTube branch fails): href contains `gdbrowser.com` or the
lowercased link text contains `gdbrowser`. -/
def isGdBrowserLink (href ltext : String) : Bool :=
  strContains href "gdbrowser.com" || strContains ltext "gdbrowser"

/-- The inner loop of the link scan over the anchors of one content
element: later category matches overwrite earlier ones, `linksFound` is
set by either branch, and every nonempty href found while `idx` equals
`difficultyElementIndex` joins the excluded set. -/
def classifyLinks (idx diffIdx : Nat) :
    List Html → Option String × Option String × Bool × List String →
    Option String × Option String × Bool × List String
  | [], st => st
  | a :: rest, (yt, gd, fnd, ex) =>
    let href := hrefOf a
    let ltext := lowerStr (textContentN a)
    let st2 : Option String × Option String × Bool :=
      if isYoutubeLink href ltext then (some href, gd, true)
      else if isGdBrowserLink href ltext then (yt, some href, true)
      else (yt, gd, fnd)
    let ex2 := if idx = diffIdx && href != "" then ex ++ [href] else ex
    classifyLinks idx diffIdx rest (st2.1, st2.2.1, st2.2.2, ex2)

/-- The outer loop of the link scan: process the anchors of each content
element in order and stop after the first element in which at least one
category link was found. -/
def scanLinksAux (diffIdx : Nat) :
    List Html → Nat → Option String → Option String → List String →
    Option String × Option String × List String
  | [], _, yt, gd, ex => (yt, gd, ex)
  | e :: rest, idx, yt, gd, ex =>
    match classifyLinks idx diffIdx (anchorsOf e) (yt, gd, false, ex) with
    | (yt2, gd2, fnd, ex2) =>
      if fnd then (yt2, gd2, ex2)
      else scanLinksAux diffIdx rest (idx + 1) yt2 gd2 ex2

/-- Whether an element contains an anchor whose href contains
`youtube.com`, `youtu.be` or `gdbrowser.com` (the href-only test of the
commentary-start pass). -/
def hasCategoryHrefAnchor (e : Html) : Bool :=
  (anchorsOf e).any (fun a =>
    strContains (hrefOf a) "youtube.com" || strContains (hrefOf a) "youtu.be" ||
    strContains (hrefOf a) "gdbrowser.com")

/-- The commentary-start pass: after the first element whose text
contains the label, and after the first element at or past it containing
a category href, the commentary begins; the pass runs over the whole
content list. -/
def commentaryStartAux :
    List Html → Nat → Nat → Bool → Bool → Nat
  | [], _, start, _, _ => start
  | e :: rest, j, start, fd, fl =>
    let hit := !fd && labelSearch (textContentN e).data
    let fd2 := fd || hit
    let start2 := if hit then j + 1 else start
    let hit2 := fd2 && !fl && hasCategoryHrefAnchor e
    let fl2 := fl || hit2
    let start3 := if hit2 then j + 1 else start2
    commentaryStartAux rest (j + 1) start3 fd2 fl2

/-- The commentary collection from `commentaryStartIndex` on: stop at a
heading (unreachable, since `allContent` contains none), skip elements
with empty trimmed text or with the label in their trimmed text,
clone-and-strip the rest, and keep a clone only if it still has nonempty
trimmed text or a keepable descendant. -/
def collectCommentaryAux (ex : List String) : List Html → List Html
  | [] => []
  | e :: rest =>
    if isHeadingNode e then []
    else
      let t := jsTrim (textContentN e)
      if t != "" && !(labelSearch t.data) then
        let clone := cleanN ex e
        if jsTrim (textContentN clone) != "" || hasKeepable clone
        then clone :: collectCommentaryAux ex rest
        else collectCommentaryAux ex rest
      else collectCommentaryAux ex rest

/-- Class-attribute token list (split on ASCII whitespace), for the
`.footnotes` and `.data-footnote-backref` class selectors. -/
def classTokens (s : String) : List String :=
  ((s.data.splitOnP (fun c => c = ' ' || c = '\t' || c = '\n' || c = '\r' || c = '\x0c')).map
    String.mk).filter (fun w => w != "")

/-- Whether an attribute list carries the attribute `nm` (the `[nm]`
attribute-presence selector). -/
def hasAttrKey (attrs : List (String × String)) (nm : String) : Bool :=
  (getAttr attrs nm).isSome

/-- Whether an element matches `section[data-footnotes], .footnotes`. -/
def isFnSection : Html → Bool
  | .text _ => false
  | .elem t attrs _ =>
    (t == "section" && hasAttrKey attrs "data-footnotes") ||
    (classTokens (attrOr attrs "class")).contains "footnotes"

mutual

/-- `doc.querySelector('section[data-footnotes], .footnotes')`: first
matching element in document order. -/
def findFnSecN (n : Html) : Option Html :=
  if isFnSection n then some n
  else match n with
    | .text _ => none
    | .elem _ _ cs => findFnSecL cs

/-- `findFnSecN` over a node list. -/
def findFnSecL : List Html → Option Html
  | [] => none
  | n :: rest =>
    match findFnSecN n with
    | some e => some e
    | none => findFnSecL rest

end

/-- Whether an anchor matches the back-reference selector
`a[data-footnote-backref], a.data-footnote-backref,
a[href^="#user-content-fnref"], a[href^="#fnref"]`. -/
def isBackref (attrs : List (String × String)) : Bool :=
  hasAttrKey attrs "data-footnote-backref" ||
  (classTokens (attrOr attrs "class")).contains "data-footnote-backref" ||
  strStarts (attrOr attrs "href") "#user-content-fnref" ||
  strStarts (attrOr attrs "href") "#fnref"

/-- Whether a node is an anchor matching the back-reference selector. -/
def isBackrefAnchor : Html → Bool
  | .text _ => false
  | .elem t attrs _ => t == "a" && isBackref attrs

mutual

/-- Back-reference removal inside one kept node. -/
def stripBackrefsN : Html → Html
  | .text s => .text s
  | .elem t attrs cs => .elem t attrs (stripBackrefsL cs)

/-- Remove back-reference anchors from a node list (`backrefs.forEach(a
=> a.remove())` over the footnote clone's descendants). -/
def stripBackrefsL : List Html → List Html
  | [] => []
  | n :: rest =>
    if isBackrefAnchor n then stripBackrefsL rest
    else stripBackrefsN n :: stripBackrefsL rest

end

/-- Whether a node matches `li[id]` under a parent with tag `pt`
(the subject of the `ol > li[id]` selector). -/
def isFnItem (pt : String) : Html → Bool
  | .text _ => false
  | .elem t attrs _ => t == "li" && hasAttrKey attrs "id" && pt == "ol"

mutual

/-- The `ol > li[id]` matches among the descendants of one node. -/
def fnItemsN : Html → List Html
  | .text _ => []
  | .elem t _ cs => fnItemsL t cs

/-- `footnotesSection.querySelectorAll('ol > li[id]')`: descendant `li`
elements with an `id` attribute whose parent is an `ol`, in document
order; `pt` is the tag of the parent of the nodes in the list. -/
def fnItemsL (pt : String) : List Html → List Html
  | [] => []
  | n :: rest =>
    (if isFnItem pt n then [n] else []) ++ fnItemsN n ++ fnItemsL pt rest

end

/-- The footnote map: for each collected `li[id]` with nonempty id, the
trimmed `innerHTML` of its clone with back-reference anchors removed;
assignment into the record object means a later binding of the same id
overwrites an earlier one. -/
def buildFnMap : Html → List (String × String)
  | .text _ => []
  | .elem t _attrs cs =>
    (fnItemsL t cs).filterMap (fun li =>
      match li with
      | .text _ => none
      | .elem _li lattrs lcs =>
        let id := attrOr lattrs "id"
        if id = "" then none
        else some (id, jsTrim (innerHTMLL (stripBackrefsL lcs))))

/-- Lookup in the footnote map: the latest binding wins (object-property
assignment). -/
def fmGet (m : List (String × String)) (k : String) : Option String :=
  (m.reverse.find? (fun p => p.1 == k)).map (fun p => p.2)

/-- Truthiness of `footnoteMap[refId]`: a binding exists and its value is
a nonempty string. -/
def fmTruthy (m : List (String × String)) (k : String) : Bool :=
  match fmGet m k with
  | some b => b != ""
  | none => false

/-- Whether an anchor node is a resolvable footnote reference: href
present, starting with `#`, with a truthy map entry for the fragment. -/
def isFnRefAnchor (m : List (String × String)) (attrs : List (String × String)) : Bool :=
  strStarts (attrOr attrs "href") "#" &&
  strTail (attrOr attrs "href") != "" &&
  fmTruthy m (strTail (attrOr attrs "href"))

mutual

/-- The footnote-reference pass on one node: a matching anchor is
replaced by a text node holding its `textContent` and its fragment id is
appended to the accumulator unless already present; any other node keeps
its shape with its children processed. -/
def replaceRefsN (m : List (String × String)) :
    Html → List String → Html × List String
  | .text s, acc => (.text s, acc)
  | .elem t attrs cs, acc =>
    if t == "a" && isFnRefAnchor m attrs then
      let id := strTail (attrOr attrs "href")
      let acc2 := if acc.contains id then acc else acc ++ [id]
      (.text (textContentL cs), acc2)
    else
      let rc := replaceRefsL m cs acc
      (.elem t attrs rc.1, rc.2)

/-- The footnote-reference pass over a node list: children are visited
before later siblings (document order), threading the first-reference
accumulator. -/
def replaceRefsL (m : List (String × String)) :
    List Html → List String → List Html × List String
  | [], acc => ([], acc)
  | n :: rest, acc =>
    let r1 := replaceRefsN m n acc
    let r2 := replaceRefsL m rest r1.2
    (r1.1 :: r2.1, r2.2)

end

/-- The footnote-reference pass applied to the list of commentary
elements: `el.querySelectorAll('a[href^="#"]')` inspects descendants
only, so each element's children are processed while the element itself
is never replaced. -/
def resolveAll (m : List (String × String)) :
    List Html → List String → List Html × List String
  | [], acc => ([], acc)
  | .text s :: rest, acc =>
    let r := resolveAll m rest acc
    (.text s :: r.1, r.2)
  | .elem t attrs cs :: rest, acc =>
    let rc := replaceRefsL m cs acc
    let r := resolveAll m rest rc.2
    (.elem t attrs rc.1 :: r.1, r.2)

/-- `id.match(/(\d+)$/)` followed by `parseInt(match[1], 10)`: the
maximal nonempty trailing digit run, as a natural number (the identifiers
in scope are far below the precision bound of JS integers). -/
def trailingInt (s : String) : Option Nat :=
  let ds := s.data.reverse.takeWhile Char.isDigit
  if ds.isEmpty then none else some (digitsToNat ds.reverse)

/-- Serialization of one appended footnote list item: the `value`
attribute is set from the parseable trailing integer of the id, and the
body is `footnoteMap[id] || ''`.  The body string is the trimmed
serialization of the stripped footnote clone, so assigning it through
`innerHTML` and reserializing reproduces it verbatim. -/
def liHtmlOf (m : List (String × String)) (id : String) : String :=
  (match trailingInt id with
   | some n => "<li value=\"" ++ toString n ++ "\">"
   | none => "<li>") ++
  (fmGet m id).getD "" ++ "</li>"

/-- Serialization of the appended footnote block: nothing when no
footnote was referenced, otherwise the wrapper div with one ordered list
holding the referenced footnotes in first-reference order. -/
def footnotesHtml (m : List (String × String)) (ids : List String) : String :=
  if ids.isEmpty then ""
  else
    "<div class=\"commentary-footnotes\"><ol>" ++
    String.join (ids.map (liHtmlOf m)) ++ "</ol></div>"

/-- The link scan's result for a section (`youtubeUrl`, `gdBrowserUrl`,
`excludedHrefs`). -/
def linkScan (content : List Html) (diffIdx : Nat) :
    Option String × Option String × List String :=
  scanLinksAux diffIdx content 0 none none []

/-- The excluded-href set collected by the link scan. -/
def excludedOf (content : List Html) (diffIdx : Nat) : List String :=
  (linkScan content diffIdx).2.2

/-- The document's footnote map (empty when no footnote container is
found). -/
def theFnMap (doc : Html) : List (String × String) :=
  match findFnSecN doc with
  | some sec => buildFnMap sec
  | none => []

/-- The commentary clones of a section, before footnote resolution. -/
def commentaryClones (content : List Html) (diffIdx : Nat) : List Html :=
  collectCommentaryAux (excludedOf content diffIdx)
    (content.drop (commentaryStartAux content 0 0 false false))

/-- The serialized commentary of a section, footnotes resolved and the
referenced-footnote list appended. -/
def commentaryOf (doc : Html) (content : List Html) (diffIdx : Nat) : String :=
  let rf := resolveAll (theFnMap doc) (commentaryClones content diffIdx) []
  String.join (rf.1.map outerHTML) ++ footnotesHtml (theFnMap doc) rf.2

/-- The loop body for one `h3`: the translation of one iteration of the
source's `for` loop over `h3Elements`, producing the pushed record or
`none` when the section is skipped for lack of a difficulty value. -/
def buildLevel (doc h3 : Html) (tail : List Html) : Option LevelData :=
  let levelNameAndPublisher := jsTrim (textContentN h3)
  let np := splitNamePublisher levelNameAndPublisher
  let allContent := collectContent tail
  match findDifficultyAux allContent 0 with
  | none => none
  | some (difficulty, diffIdx) =>
    some { name := np.1, publisher := np.2, difficulty := difficulty,
           youtubeUrl := (linkScan allContent diffIdx).1,
           gdBrowserUrl := (linkScan allContent diffIdx).2.1,
           commentary := commentaryOf doc allContent diffIdx }

mutual

/-- The `h3`-with-siblings pairs contributed by one node and its
descendants: the node itself (paired with its following siblings `rest`)
when it is an `h3`, then the `h3` elements among its descendants. -/
def h3SecN : Html → List Html → List (Html × List Html)
  | .text _, _ => []
  | .elem t attrs cs, rest =>
    (if t == "h3" then [(Html.elem t attrs cs, rest)] else []) ++ h3SecL cs

/-- All `h3` elements of a node list in document order
(`doc.querySelectorAll('h3')`), each paired with its following siblings
(the `h3.nextSibling` walk's input). -/
def h3SecL : List Html → List (Html × List Html)
  | [] => []
  | n :: rest => h3SecN n rest ++ h3SecL rest

end

/-- The extraction over a parsed document: one candidate record per `h3`
in document order, skipped sections omitted. -/
def parseLevelDoc (doc : Html) : List LevelData :=
  (h3SecL [doc]).filterMap (fun p => buildLevel doc p.1 p.2)

/-- The observable outcome of the `fetch` call: status flag, status text
and the DOM tree the response text parses to (`DOMParser.parseFromString`
always yields a tree). -/
structure FetchResponse where
  ok : Bool
  statusText : String
  body : Html

/-- `fetchAndParseLevelData`, given the fetched response: a non-success
status throws the single descriptive error, otherwise the parsed record
list is returned. -/
def fetchAndParseLevelData (response : FetchResponse) : Except String (List LevelData) :=
  if !response.ok then
    .error ("Failed to fetch blog post: " ++ response.statusText)
  else
    .ok (parseLevelDoc response.body)

/-! ### Characterization lemmas -/

/-- The difficulty scan fails exactly on content none of whose elements
matches the full pattern. -/
theorem findDifficultyAux_none (l : List Html) (i : Nat)
    (h : ∀ e ∈ l, diffCapture (textContentN e).data = none) :
    findDifficultyAux l i = none := by
  induction l generalizing i with
  | nil => rfl
  | cons e rest ih =>
    have he := h e (List.mem_cons_self e rest)
    simp only [findDifficultyAux, he]
    exact ih (i + 1) (fun x hx => h x (List.mem_cons_of_mem e hx))

/-- A successful difficulty scan identifies the first matching element,
and converts its capture by comma-stripping and decimal parsing. -/
theorem findDifficultyAux_some (l : List Html) (i : Nat) (v : JsNum) (k : Nat)
    (h : findDifficultyAux l i = some (v, k)) :
    ∃ j e cap, k = i + j ∧ l.get? j = some e ∧
      diffCapture (textContentN e).data = some cap ∧
      v = jsParseFloat (stripCommas cap) ∧
      ∀ m e2, m < j → l.get? m = some e2 →
        diffCapture (textContentN e2).data = none := by
  induction l generalizing i with
  | nil => simp [findDifficultyAux] at h
  | cons e rest ih =>
    cases hcap : diffCapture (textContentN e).data with
    | some cap =>
      simp only [findDifficultyAux, hcap, Option.some.injEq, Prod.mk.injEq] at h
      refine ⟨0, e, cap, by omega, rfl, hcap, h.1.symm, ?_⟩
      intro m e2 hm
      exact absurd hm (Nat.not_lt_zero m)
    | none =>
      simp only [findDifficultyAux, hcap] at h
      obtain ⟨j, e1, cap, hkj, hget, hc, hv, hfirst⟩ := ih (i + 1) h
      refine ⟨j + 1, e1, cap, by omega, by simpa using hget, hc, hv, ?_⟩
      intro m e2 hm hget2
      cases m with
      | zero =>
        have : e2 = e := by simpa using hget2.symm
        rw [this]; exact hcap
      | succ m2 => exact hfirst m2 e2 (by omega) (by simpa using hget2)

/-- `buildLevel` with no difficulty match: the section is skipped. -/
theorem buildLevel_none (doc h3 : Html) (tail : List Html)
    (h : findDifficultyAux (collectContent tail) 0 = none) :
    buildLevel doc h3 tail = none := by
  simp only [buildLevel, h]

/-- `buildLevel` with a difficulty match: the record pushed by the loop
body, in terms of the named pipeline pieces. -/
theorem buildLevel_some (doc h3 : Html) (tail : List Html) (v : JsNum) (k : Nat)
    (h : findDifficultyAux (collectContent tail) 0 = some (v, k)) :
    buildLevel doc h3 tail = some {
      name := (splitNamePublisher (jsTrim (textContentN h3))).1,
      publisher := (splitNamePublisher (jsTrim (textContentN h3))).2,
      difficulty := v,
      youtubeUrl := (linkScan (collectContent tail) k).1,
      gdBrowserUrl := (linkScan (collectContent tail) k).2.1,
      commentary := commentaryOf doc (collectContent tail) k } := by
  simp only [buildLevel, h]

/-- Definition following the spec's words for claim C5: the section
content for a heading consists of the sibling elements from directly
after the heading up to, exclusively, the first heading of level 1-6
(the next level-3 heading is itself such a heading, so the earlier of
the two boundaries is the first heading). -/
def sectionContentSpec (tail : List Html) : List Html :=
  (tail.takeWhile (fun n => !isHeadingNode n)).filter isElemNode

/-! ### Claim C5: section boundaries -/

/-- C5: for every level-3 heading, the collected section content is
exactly the sibling elements from directly after the heading up to,
exclusively, the first following heading of level 1-6 (whichever of the
next level-3 heading and any other heading comes first); `tail` ranges
over the sibling list following any heading, so this covers every `h3`
of every document. -/
theorem c5_section_boundaries (tail : List Html) :
    collectContent tail = sectionContentSpec tail := by
  induction tail with
  | nil => rfl
  | cons n rest ih =>
    cases n with
    | text s =>
      simp [collectContent, sectionContentSpec, isHeadingNode, isElemNode,
        List.takeWhile, List.filter] at *
      exact ih
    | elem t attrs cs =>
      by_cases ht : isHeadingTag t
      · simp [collectContent, sectionContentSpec, isHeadingNode, isElemNode,
          List.takeWhile, ht]
      · simp [collectContent, sectionContentSpec, isHeadingNode, isElemNode,
          List.takeWhile, List.filter, ht] at *
        exact ih

/-! ### Claim C1: sections without a difficulty line produce no record -/

/-- C1: a level-3 heading section none of whose content elements has
text matching the difficulty pattern `Difficulty value: <number>`
contributes no record — the loop body yields `none` rather than a
defaulted record, so the section is absent from the `filterMap`ped
output list. -/
theorem c1_no_difficulty_no_record (doc h3 : Html) (tail : List Html)
    (h : ∀ e ∈ collectContent tail, diffCapture (textContentN e).data = none) :
    buildLevel doc h3 tail = none :=
  buildLevel_none doc h3 tail (findDifficultyAux_none (collectContent tail) 0 h)

/-- Witness for C1 at a concrete section whose only content element has
no difficulty line. -/
theorem c1_witness :
    buildLevel (Html.elem "body" [] []) (Html.elem "h3" [] [Html.text "A by B"])
      [Html.elem "p" [] [Html.text "no difficulty here"]] = none :=
  c1_no_difficulty_no_record _ _ _ (by decide)

/-! ### Concrete documents used by witnesses and counterexamples -/

/-- A paragraph element holding one text node. -/
def pEl (s : String) : Html := Html.elem "p" [] [Html.text s]

/-- An anchor element with an href and one text node. -/
def aEl (href txt : String) : Html := Html.elem "a" [("href", href)] [Html.text txt]

/-- The `h3` heading of the `docAlpha` document. -/
def h3Alpha : Html := Html.elem "h3" [] [Html.text "Level Alpha by Coder1"]

/-- The sibling list following `h3Alpha`. -/
def tailAlpha : List Html :=
  [pEl "Difficulty value: 1,234.5",
   Html.elem "p" [] [aEl "https://youtube.com/w" "video"],
   pEl "Some commentary."]

/-- A document with one complete section whose difficulty line uses a
thousands separator and a decimal point. -/
def docAlpha : Html := Html.elem "body" [] (h3Alpha :: tailAlpha)

/-- The record `docAlpha` parses to. -/
def recAlpha : LevelData :=
  { name := "Level Alpha", publisher := "Coder1",
    difficulty := some (mkRat 2469 2),
    youtubeUrl := some "https://youtube.com/w", gdBrowserUrl := none,
    commentary := "<p>Some commentary.</p>" }

/-! ### Claim C2: difficulty extraction and decimal parsing -/

/-- C2: every emitted record's difficulty comes from the first content
element (in order) whose text matches the difficulty pattern, converted
by removing thousands-separator commas and decimal parsing; in
particular `Difficulty value: 1,234.5` yields 1234.5. -/
theorem c2_difficulty_parsing :
    (∀ doc h3 tail r, buildLevel doc h3 tail = some r →
      ∃ j e cap, (collectContent tail).get? j = some e ∧
        diffCapture (textContentN e).data = some cap ∧
        r.difficulty = jsParseFloat (stripCommas cap) ∧
        ∀ m e2, m < j → (collectContent tail).get? m = some e2 →
          diffCapture (textContentN e2).data = none)
    ∧ (parseLevelDoc docAlpha).map (fun r => r.difficulty) = [some (mkRat 2469 2)]
    ∧ (mkRat 2469 2 : ℚ) = (1234.5 : ℚ) := by
  constructor
  · intro doc h3 tail r h
    cases hfd : findDifficultyAux (collectContent tail) 0 with
    | none =>
      rw [buildLevel_none doc h3 tail hfd] at h
      exact absurd h (by simp)
    | some pr =>
      obtain ⟨v, k⟩ := pr
      rw [buildLevel_some doc h3 tail v k hfd] at h
      have hr := Option.some.inj h
      obtain ⟨j, e, cap, _, hget, hcap, hv, hfirst⟩ :=
        findDifficultyAux_some (collectContent tail) 0 v k hfd
      refine ⟨j, e, cap, hget, hcap, ?_, hfirst⟩
      rw [← hr]
      exact hv
  · exact ⟨by decide, by rw [Rat.mkRat_eq_div]; norm_num⟩

/-- Witness for C2's general part at the concrete `docAlpha` section. -/
theorem c2_witness :
    ∃ j e cap, (collectContent tailAlpha).get? j = some e ∧
      diffCapture (textContentN e).data = some cap ∧
      recAlpha.difficulty = jsParseFloat (stripCommas cap) ∧
      ∀ m e2, m < j → (collectContent tailAlpha).get? m = some e2 →
        diffCapture (textContentN e2).data = none :=
  c2_difficulty_parsing.1 docAlpha h3Alpha tailAlpha recAlpha (by decide)

/-! ### Claim C4: the link scan stops at the first link-bearing element -/

/-- A section element containing only a secondary-category (GDBrowser)
link, placed before any YouTube link of the section. -/
def gdOnlyElem : Html := Html.elem "p" [] [aEl "https://gdbrowser.com/1" "view"]

/-- A later section element containing a primary-category (YouTube)
link. -/
def ytLaterElem : Html := Html.elem "p" [] [aEl "https://youtube.com/w" "vid"]

/-- A document whose one section has a GDBrowser-only element before the
element holding its only YouTube link. -/
def docScanStop : Html := Html.elem "body" []
  [Html.elem "h3" [] [Html.text "Level B by X"],
   pEl "Difficulty value: 3",
   gdOnlyElem,
   ytLaterElem]

/-- C4: on `docScanStop` the scan halts at the GDBrowser-only element,
so the emitted record has `youtubeUrl = null` although a later element
of the same section contains a YouTube-classified link (which even
survives into the commentary). -/
theorem c4_scan_stops_at_first_link_element :
    parseLevelDoc docScanStop =
      [{ name := "Level B", publisher := "X", difficulty := some (mkRat 3 1),
         youtubeUrl := none, gdBrowserUrl := some "https://gdbrowser.com/1",
         commentary := "<p><a href=\"https://youtube.com/w\">vid</a></p>" }]
    ∧ (anchorsOf ytLaterElem).any
        (fun a => isYoutubeLink (hrefOf a) (lowerStr (textContentN a))) = true := by
  decide

/-! ### Claim C6: heading name/author split -/

/-- C6: the heading split behaves as specified — a separator match
yields the trimmed title and trimmed attribution (with ` by ` matched
case-insensitively and ` - ` both accepted), no separator yields the
full trimmed heading text with an empty attribution, and every emitted
record's `name`/`publisher` pair is exactly this split of its heading's
trimmed text. -/
theorem c6_heading_split :
    splitNamePublisher "Level X by Jane" = ("Level X", "Jane")
    ∧ splitNamePublisher "Level X - Jane" = ("Level X", "Jane")
    ∧ splitNamePublisher "Level X" = ("Level X", "")
    ∧ splitNamePublisher "Level X BY Jane" = ("Level X", "Jane")
    ∧ (∀ s : String, findSepAux [] s.data = none → splitNamePublisher s = (s, ""))
    ∧ (∀ s : String, ∀ g1 g2 : List Char, findSepAux [] s.data = some (g1, g2) →
        splitNamePublisher s = (jsTrim (String.mk g1), jsTrim (String.mk g2)))
    ∧ (∀ doc h3 tail r, buildLevel doc h3 tail = some r →
        (r.name, r.publisher) = splitNamePublisher (jsTrim (textContentN h3))) := by
  refine ⟨by decide, by decide, by decide, by decide, ?_, ?_, ?_⟩
  · intro s h
    simp [splitNamePublisher, h]
  · intro s g1 g2 h
    simp [splitNamePublisher, h]
  · intro doc h3 tail r h
    cases hfd : findDifficultyAux (collectContent tail) 0 with
    | none =>
      rw [buildLevel_none doc h3 tail hfd] at h
      exact absurd h (by simp)
    | some pr =>
      obtain ⟨v, k⟩ := pr
      rw [buildLevel_some doc h3 tail v k hfd] at h
      rw [← Option.some.inj h]

/-- Witness for C6's record-level part at the concrete `docAlpha`
section, discharging the emitted-record hypothesis. -/
theorem c6_witness :
    (recAlpha.name, recAlpha.publisher) =
      splitNamePublisher (jsTrim (textContentN h3Alpha)) :=
  c6_heading_split.2.2.2.2.2.2 docAlpha h3Alpha tailAlpha recAlpha (by decide)

/-! ### Claim C8: transport errors and total extraction -/

/-- C8: the function signals an error exactly when the response status
is non-success, propagating the single descriptive message and no record
list; on success it returns the extraction's result, which is total for
every DOM tree (sections that produce no record are skipped inside
`parseLevelDoc`, never raised). -/
theorem c8_transport_error (response : FetchResponse) :
    (response.ok = false →
      fetchAndParseLevelData response =
        .error ("Failed to fetch blog post: " ++ response.statusText))
    ∧ (response.ok = true →
      fetchAndParseLevelData response = .ok (parseLevelDoc response.body)) := by
  constructor <;> intro h <;> simp [fetchAndParseLevelData, h]

/-- Witness for C8 at a failed and a successful concrete response. -/
theorem c8_witness :
    fetchAndParseLevelData ⟨false, "Not Found", docAlpha⟩ =
      .error ("Failed to fetch blog post: " ++ "Not Found")
    ∧ fetchAndParseLevelData ⟨true, "OK", docAlpha⟩ = .ok (parseLevelDoc docAlpha) :=
  ⟨(c8_transport_error ⟨false, "Not Found", docAlpha⟩).1 rfl,
   (c8_transport_error ⟨true, "OK", docAlpha⟩).2 rfl⟩

/-- The difficulty scan succeeds exactly when some content element's
text matches the full difficulty pattern. -/
theorem findDifficultyAux_isSome (l : List Html) (i : Nat) :
    (findDifficultyAux l i).isSome =
      l.any (fun e => (diffCapture (textContentN e).data).isSome) := by
  induction l generalizing i with
  | nil => rfl
  | cons e rest ih =>
    cases hcap : diffCapture (textContentN e).data with
    | some cap => simp [findDifficultyAux, hcap]
    | none => simp [findDifficultyAux, hcap]; exact ih (i + 1)

/-! ### Claim C10 (corrected): NaN difficulties are emitted, not dropped -/

/-- A document whose difficulty line's matched number text consists only
of a dot and a comma, so `parseFloat` yields `NaN` after the commas are
stripped. -/
def docCommaDot : Html := Html.elem "body" []
  [Html.elem "h3" [] [Html.text "Level F by V"], pEl "Difficulty value: .,"]

/-- Counterexample to C10: on `docCommaDot` the pattern matches text
consisting only of commas and decimal points, the parse fails, and the
section is nonetheless emitted — as a record whose difficulty is `NaN`
(`none`), not dropped. -/
theorem c10_counterexample :
    parseLevelDoc docCommaDot =
      [{ name := "Level F", publisher := "V", difficulty := none,
         youtubeUrl := none, gdBrowserUrl := none, commentary := "" }] := by
  decide

/-- C10 as amended: a section is dropped exactly when no content element
matches the difficulty pattern; when the matched text fails to parse
(for example only commas and dots) the record is emitted with a `NaN`
difficulty. -/
theorem c10_amended_drop_iff_no_match :
    (∀ doc h3 tail, (buildLevel doc h3 tail).isSome =
      (collectContent tail).any
        (fun e => (diffCapture (textContentN e).data).isSome))
    ∧ (parseLevelDoc docCommaDot).map (fun r => r.difficulty) = [none] := by
  constructor
  · intro doc h3 tail
    have hl := findDifficultyAux_isSome (collectContent tail) 0
    cases hfd : findDifficultyAux (collectContent tail) 0 with
    | none =>
      rw [buildLevel_none doc h3 tail hfd, ← hl, hfd]
      rfl
    | some pr =>
      obtain ⟨v, k⟩ := pr
      rw [buildLevel_some doc h3 tail v k hfd, ← hl, hfd]
      rfl
  · decide

/-! ### Claim C9 (corrected): record names can be empty -/

/-- A document whose `h3` has no text at all but whose section carries a
difficulty line. -/
def docEmptyHeading : Html := Html.elem "body" []
  [Html.elem "h3" [] [], pEl "Difficulty value: 5"]

/-- Counterexample to C9: a heading with empty text still emits a record
(given a difficulty line), and that record's `name` is the empty
string. -/
theorem c9_counterexample :
    parseLevelDoc docEmptyHeading =
      [{ name := "", publisher := "", difficulty := some (mkRat 5 1),
         youtubeUrl := none, gdBrowserUrl := none, commentary := "" }] := by
  decide

/-- `dropWhile` exposes a head falsifying the predicate. -/
theorem dropWhile_head_false {α : Type} (p : α → Bool) :
    ∀ (l : List α) c r, l.dropWhile p = c :: r → p c = false := by
  intro l
  induction l with
  | nil => intro c r h; simp [List.dropWhile] at h
  | cons x xs ih =>
    intro c r h
    by_cases hx : p x
    · rw [List.dropWhile_cons_of_pos hx] at h
      exact ih c r h
    · rw [List.dropWhile_cons_of_neg hx] at h
      cases h
      simpa using hx

/-- `dropWhile` is a suffix: the dropped part can be recovered. -/
theorem exists_append_dropWhile {α : Type} (p : α → Bool) :
    ∀ l : List α, ∃ u, l = u ++ l.dropWhile p := by
  intro l
  induction l with
  | nil => exact ⟨[], rfl⟩
  | cons x xs ih =>
    by_cases hx : p x
    · obtain ⟨u, hu⟩ := ih
      exact ⟨x :: u, by rw [List.dropWhile_cons_of_pos hx]; simpa using hu⟩
    · exact ⟨[], by rw [List.dropWhile_cons_of_neg hx]; simp⟩

/-- The head of a trimmed character list is never whitespace. -/
theorem jsTrimL_head_not_ws (l : List Char) (c : Char) (r : List Char)
    (h : jsTrimL l = c :: r) : jsIsWS c = false := by
  unfold jsTrimL dropTrailingWS at h
  set m := l.dropWhile jsIsWS with hm
  obtain ⟨u, hu⟩ := exists_append_dropWhile jsIsWS m.reverse
  have hpref : m = (m.reverse.dropWhile jsIsWS).reverse ++ u.reverse := by
    have := congrArg List.reverse hu
    simpa [List.reverse_append] using this
  rw [h] at hpref
  have hhead : ∃ r2, m = c :: r2 := ⟨r ++ u.reverse, by simpa using hpref⟩
  obtain ⟨r2, hr2⟩ := hhead
  exact dropWhile_head_false jsIsWS l c r2 (hm ▸ hr2)

/-- Trimming a list with a non-whitespace head is nonempty. -/
theorem jsTrimL_cons_ne_nil (c : Char) (l : List Char)
    (hc : jsIsWS c = false) : jsTrimL (c :: l) ≠ [] := by
  unfold jsTrimL dropTrailingWS
  rw [List.dropWhile_cons_of_neg (by simp [hc])]
  intro hnil
  have : (c :: l).reverse.dropWhile jsIsWS = [] := by
    have := congrArg List.reverse hnil
    simpa using this
  rw [List.dropWhile_eq_nil_iff] at this
  have hc2 := this c (by simp)
  rw [hc] at hc2
  exact absurd hc2 (by simp)

/-- The first group of a successful separator scan extends the reversed
accumulator with a nonempty block starting at the scanned list's head. -/
theorem findSepAux_group1 :
    ∀ (l acc g1 g2 : List Char), findSepAux acc l = some (g1, g2) →
      ∃ u, g1 = acc.reverse ++ u ∧ u ≠ [] ∧ u.head? = l.head? := by
  intro l
  induction l with
  | nil => intro acc g1 g2 h; simp [findSepAux] at h
  | cons c t ih =>
    intro acc g1 g2 h
    by_cases hlt : isLineTerm c
    · simp [findSepAux, hlt] at h
    · cases hts : trySep t with
      | none =>
        simp only [findSepAux, hlt, Bool.false_eq_true, if_false, hts] at h
        obtain ⟨u2, hu2, _, _⟩ := ih (c :: acc) g1 g2 h
        exact ⟨c :: u2, by simpa using hu2, by simp, rfl⟩
      | some pr =>
        obtain ⟨ws2, rest⟩ := pr
        cases hsc : sepComplete ws2 rest with
        | some grp2 =>
          simp only [findSepAux, hlt, Bool.false_eq_true, if_false, hts, hsc,
            Option.some.injEq, Prod.mk.injEq] at h
          exact ⟨[c], by simpa using h.1.symm, by simp, rfl⟩
        | none =>
          simp only [findSepAux, hlt, Bool.false_eq_true, if_false, hts, hsc] at h
          obtain ⟨u2, hu2, _, _⟩ := ih (c :: acc) g1 g2 h
          exact ⟨c :: u2, by simpa using hu2, by simp, rfl⟩

/-- The title group of the heading split of a trimmed nonempty string is
never empty after its own trim. -/
theorem splitNamePublisher_name_ne_empty (t : String) (h : jsTrim t ≠ "") :
    (splitNamePublisher (jsTrim t)).1 ≠ "" := by
  cases hsep : findSepAux [] (jsTrim t).data with
  | none =>
    simp [splitNamePublisher, hsep]
    exact h
  | some pr =>
    obtain ⟨g1, g2⟩ := pr
    simp only [splitNamePublisher, hsep]
    have hdata : (jsTrim t).data = jsTrimL t.data := rfl
    have hne : (jsTrim t).data ≠ [] := fun hnil =>
      h (String.ext (by simpa using hnil))
    obtain ⟨c, rest, hcr⟩ : ∃ c rest, (jsTrim t).data = c :: rest := by
      cases hd : (jsTrim t).data with
      | nil => exact absurd hd hne
      | cons c rest => exact ⟨c, rest, rfl⟩
    have hcw : jsIsWS c = false :=
      jsTrimL_head_not_ws t.data c rest (hdata ▸ hcr)
    obtain ⟨u, hu, hune, hhead⟩ := findSepAux_group1 ((jsTrim t).data) [] g1 g2 hsep
    rw [hcr] at hhead
    obtain ⟨u2, hu2⟩ : ∃ u2, u = c :: u2 := by
      cases hue : u with
      | nil => exact absurd hue hune
      | cons x xs =>
        rw [hue] at hhead
        simp at hhead
        exact ⟨xs, by rw [hhead]⟩
    have hg1 : g1 = c :: u2 := by simpa [hu2] using hu
    have hfin : jsTrimL (c :: u2) ≠ [] := jsTrimL_cons_ne_nil c u2 hcw
    intro hcontra
    apply hfin
    have hdat : (jsTrim (String.mk g1)).data = ("" : String).data :=
      congrArg String.data hcontra
    simpa [jsTrim, hg1] using hdat

/-- C9 as amended: every emitted record whose heading has nonempty
trimmed text has a nonempty `name`; only a heading whose text trims to
the empty string produces an empty name. -/
theorem c9_amended_name_nonempty (doc h3 : Html) (tail : List Html)
    (r : LevelData) (hr : buildLevel doc h3 tail = some r)
    (hh : jsTrim (textContentN h3) ≠ "") : r.name ≠ "" := by
  cases hfd : findDifficultyAux (collectContent tail) 0 with
  | none =>
    rw [buildLevel_none doc h3 tail hfd] at hr
    exact absurd hr (by simp)
  | some pr =>
    obtain ⟨v, k⟩ := pr
    rw [buildLevel_some doc h3 tail v k hfd] at hr
    rw [← Option.some.inj hr]
    exact splitNamePublisher_name_ne_empty (textContentN h3) hh

/-- Witness for the amended C9 at the concrete `docAlpha` section. -/
theorem c9_witness : recAlpha.name ≠ "" :=
  c9_amended_name_nonempty docAlpha h3Alpha tailAlpha recAlpha (by decide) (by decide)

/-! ### Claim C7 (corrected): footnote resolution -/

mutual

/-- Whether a node is or contains an anchor that is a resolvable
footnote reference for the map `m`. -/
def hasRefN (m : List (String × String)) : Html → Bool
  | .text _ => false
  | .elem t attrs cs => (t == "a" && isFnRefAnchor m attrs) || hasRefL m cs

/-- `hasRefN` over a node list. -/
def hasRefL (m : List (String × String)) : List Html → Bool
  | [] => false
  | n :: rest => hasRefN m n || hasRefL m rest

end

/-- Whether an element's descendants are free of resolvable footnote
references (the element itself is exempt, matching the
`querySelectorAll` descendant scan). -/
def childRefFree (m : List (String × String)) : Html → Bool
  | .text _ => true
  | .elem _ _ cs => !hasRefL m cs

mutual

/-- The footnote pass leaves no resolvable reference in a processed
node. -/
theorem noRef_replaceN (m : List (String × String)) (n : Html) (acc : List String) :
    hasRefN m (replaceRefsN m n acc).1 = false := by
  cases n with
  | text s => simp [replaceRefsN, hasRefN]
  | elem t attrs cs =>
    by_cases ha : (t == "a" && isFnRefAnchor m attrs) = true
    · simp [replaceRefsN, ha, hasRefN]
    · simp only [replaceRefsN, ha, Bool.false_eq_true, if_false, hasRefN]
      simp only [Bool.or_eq_false_iff]
      exact ⟨by simp at ha; simp [ha], noRef_replaceL m cs acc⟩

/-- The footnote pass leaves no resolvable reference in a processed node
list. -/
theorem noRef_replaceL (m : List (String × String)) (l : List Html) (acc : List String) :
    hasRefL m (replaceRefsL m l acc).1 = false := by
  cases l with
  | nil => simp [replaceRefsL, hasRefL]
  | cons n rest =>
    simp only [replaceRefsL, hasRefL, Bool.or_eq_false_iff]
    exact ⟨noRef_replaceN m n acc, noRef_replaceL m rest (replaceRefsN m n acc).2⟩

end

mutual

/-- The reference accumulator stays duplicate-free through one node. -/
theorem nodup_replaceN (m : List (String × String)) (n : Html) (acc : List String)
    (h : acc.Nodup) : ((replaceRefsN m n acc).2).Nodup := by
  cases n with
  | text s => simpa [replaceRefsN] using h
  | elem t attrs cs =>
    by_cases ha : (t == "a" && isFnRefAnchor m attrs) = true
    · simp only [replaceRefsN, ha, if_true]
      split
      · exact h
      · rename_i hc
        have hmem : strTail (attrOr attrs "href") ∉ acc := by simpa using hc
        simp [List.nodup_append, h, hmem]
    · simp only [replaceRefsN, ha, Bool.false_eq_true, if_false]
      exact nodup_replaceL m cs acc h

/-- The reference accumulator stays duplicate-free through a node
list. -/
theorem nodup_replaceL (m : List (String × String)) (l : List Html) (acc : List String)
    (h : acc.Nodup) : ((replaceRefsL m l acc).2).Nodup := by
  cases l with
  | nil => simpa [replaceRefsL] using h
  | cons n rest =>
    simp only [replaceRefsL]
    exact nodup_replaceL m rest (replaceRefsN m n acc).2 (nodup_replaceN m n acc h)

end

/-- The element-level footnote pass leaves every output element's
descendants reference-free (the element itself is never inspected by the
descendant query). -/
theorem resolveAll_childRefFree (m : List (String × String)) :
    ∀ (l : List Html) (acc : List String),
      ((resolveAll m l acc).1).all (childRefFree m) = true := by
  intro l
  induction l with
  | nil => intro acc; simp [resolveAll]
  | cons n rest ih =>
    intro acc
    cases n with
    | text s =>
      simp only [resolveAll, List.all_cons, Bool.and_eq_true]
      exact ⟨rfl, ih acc⟩
    | elem t attrs cs =>
      simp only [resolveAll, List.all_cons, Bool.and_eq_true]
      constructor
      · simp [childRefFree, noRef_replaceL m cs acc]
      · exact ih (replaceRefsL m cs acc).2

/-- The referenced-footnote accumulator of the element-level pass stays
duplicate-free, so each referenced footnote is listed exactly once. -/
theorem resolveAll_nodup (m : List (String × String)) :
    ∀ (l : List Html) (acc : List String), acc.Nodup →
      ((resolveAll m l acc).2).Nodup := by
  intro l
  induction l with
  | nil => intro acc h; simpa [resolveAll] using h
  | cons n rest ih =>
    intro acc h
    cases n with
    | text s =>
      simp only [resolveAll]
      exact ih acc h
    | elem t attrs cs =>
      simp only [resolveAll]
      exact ih (replaceRefsL m cs acc).2 (nodup_replaceL m cs acc h)

/-- A document whose section references footnote `fn2` (twice) and
`fn1`, in that order, against a footnote index holding both, each with a
back-reference anchor to strip. -/
def docFoot : Html := Html.elem "body" []
  [Html.elem "h3" [] [Html.text "Level D by Z"],
   pEl "Difficulty value: 9",
   Html.elem "p" [] [Html.text "See", aEl "#fn2" "2", Html.text " and",
                     aEl "#fn1" "1", Html.text " and again", aEl "#fn2" "2",
                     Html.text "."],
   Html.elem "h2" [] [Html.text "end"],
   Html.elem "section" [("data-footnotes", "")] [
     Html.elem "ol" [] [
       Html.elem "li" [("id", "fn1")] [Html.text "First note. ", aEl "#fnref1" "back"],
       Html.elem "li" [("id", "fn2")] [Html.text "Second note. ", aEl "#fnref2" "back"]]]]

/-- A document whose section's only commentary element is itself a bare
anchor targeting a known footnote. -/
def docBareAnchor : Html := Html.elem "body" []
  [Html.elem "h3" [] [Html.text "Level E by W"],
   pEl "Difficulty value: 4",
   aEl "#fn1" "see note",
   Html.elem "h2" [] [Html.text "end"],
   Html.elem "section" [("data-footnotes", "")] [
     Html.elem "ol" [] [Html.elem "li" [("id", "fn1")] [Html.text "Body."]]]]

/-- Counterexample to C7: on `docBareAnchor` the commentary anchor
`#fn1` targets a footnote present in the index (its map entry resolves),
yet the serialized commentary retains the anchor verbatim — it is not
replaced by plain text and no ordered list is appended — because the
per-element reference scan inspects only descendants of each commentary
element, never the element itself. -/
theorem c7_counterexample :
    parseLevelDoc docBareAnchor =
      [{ name := "Level E", publisher := "W", difficulty := some (mkRat 4 1),
         youtubeUrl := none, gdBrowserUrl := none,
         commentary := "<a href=\"#fn1\">see note</a>" }]
    ∧ fmGet (theFnMap docBareAnchor) "fn1" = some "Body." := by
  decide

/-- C7 as amended: every footnote-reference anchor lying strictly inside
a commentary element is replaced (no resolvable reference survives among
any output element's descendants); each referenced footnote id is
accumulated exactly once; and the concrete `docFoot` shows the full
behavior — anchors replaced by their plain text, a trailing ordered list
holding each referenced footnote's stripped body once, in
first-reference order, each list item's `value` attribute set from the
trailing integer of the footnote's identifier. -/
theorem c7_amended_footnotes :
    (∀ (m : List (String × String)) (l : List Html) (acc : List String),
      ((resolveAll m l acc).1).all (childRefFree m) = true)
    ∧ (∀ (m : List (String × String)) (l : List Html) (acc : List String),
        acc.Nodup → ((resolveAll m l acc).2).Nodup)
    ∧ parseLevelDoc docFoot =
        [{ name := "Level D", publisher := "Z", difficulty := some (mkRat 9 1),
           youtubeUrl := none, gdBrowserUrl := none,
           commentary := "<p>See2 and1 and again2.</p><div class=\"commentary-footnotes\"><ol><li value=\"2\">Second note.</li><li value=\"1\">First note.</li></ol></div>" }] := by
  refine ⟨fun m l acc => resolveAll_childRefFree m l acc,
          fun m l acc h => resolveAll_nodup m l acc h, ?_⟩
  decide

/-- Witness for the amended C7, instantiating the duplicate-freedom part
on the concrete `docFoot` commentary. -/
theorem c7_witness :
    ((resolveAll (theFnMap docFoot)
        (commentaryClones (collectContent (List.drop 1
          [Html.elem "h3" [] [Html.text "Level D by Z"],
           pEl "Difficulty value: 9"])) 0) []).2).Nodup :=
  c7_amended_footnotes.2.1 _ _ [] List.nodup_nil

/-! ### Claim C3 groundwork: occurrence surgery for the label search -/

/-- No whitespace character lowercases to a letter of the label's
literals or to its colon. -/
theorem ws_toLower_ne (c : Char) (h : jsIsWS c = true) :
    Char.toLower c ≠ 'd' ∧ Char.toLower c ≠ 'v' ∧ Char.toLower c ≠ ':' := by
  have hm : c ∈ jsWSChars := by simpa [jsIsWS] using h
  fin_cases hm <;> exact ⟨by decide, by decide, by decide⟩

/-- Case-insensitive matching decomposes the input into the consumed
(case-variant) block and the remainder. -/
theorem matchCI_decomp :
    ∀ (n l r : List Char), matchCI n l = some r →
      ∃ p, l = p ++ r ∧ List.Forall₂ (fun a b => a = Char.toLower b) n p := by
  intro n
  induction n with
  | nil =>
    intro l r h
    simp [matchCI] at h
    exact ⟨[], by simp [h], List.Forall₂.nil⟩
  | cons x xs ih =>
    intro l r h
    cases l with
    | nil => simp [matchCI] at h
    | cons c cs =>
      rw [matchCI] at h
      by_cases hx : x = c.toLower
      · rw [if_pos hx] at h
        obtain ⟨p2, hp2, hf⟩ := ih cs r h
        exact ⟨c :: p2, by simp [hp2], List.Forall₂.cons hx hf⟩
      · rw [if_neg hx] at h
        exact absurd h (by simp)

/-- A consumed case-variant block matches again in front of any
extension. -/
theorem matchCI_ext :
    ∀ (n p : List Char), List.Forall₂ (fun a b => a = Char.toLower b) n p →
      ∀ ext, matchCI n (p ++ ext) = some ext := by
  intro n p hf
  induction hf with
  | nil => intro ext; simp [matchCI]
  | cons hx _ ih =>
    intro ext
    simp only [List.cons_append, matchCI, if_pos hx]
    exact ih ext

/-- `dropWhile` walks over a front block and stops at a failing head. -/
theorem dropWhile_append_head_false {α : Type} (p : α → Bool) :
    ∀ (a : List α) (h : α) (tb : List α), p h = false →
      List.dropWhile p (a ++ h :: tb) = List.dropWhile p a ++ h :: tb := by
  intro a h tb hh
  induction a with
  | nil => simp [List.dropWhile, hh]
  | cons x xs ih =>
    by_cases hx : p x
    · simpa [List.dropWhile_cons_of_pos hx] using ih
    · simp [List.dropWhile_cons_of_neg hx]

/-- Members of a `takeWhile` block satisfy the predicate. -/
theorem mem_takeWhile_pred {α : Type} (p : α → Bool) :
    ∀ (l : List α) (x : α), x ∈ l.takeWhile p → p x = true := by
  intro l
  induction l with
  | nil => intro x hx; simp [List.takeWhile] at hx
  | cons c cs ih =>
    intro x hx
    by_cases hc : p c
    · rw [List.takeWhile_cons_of_pos hc] at hx
      rcases List.mem_cons.mp hx with rfl | hx2
      · exact hc
      · exact ih x hx2
    · rw [List.takeWhile_cons_of_neg hc] at hx
      simp at hx

/-- `Forall₂` transports `getLast?`. -/
theorem forall2_getLast {R : Char → Char → Prop} :
    ∀ (n p : List Char), List.Forall₂ R n p → ∀ x, n.getLast? = some x →
      ∃ y, p.getLast? = some y ∧ R x y := by
  intro n p hf
  induction hf with
  | nil => intro x hx; simp at hx
  | @cons a b n2 p2 hab htail ih =>
    intro x hx
    cases n2 with
    | nil =>
      cases htail
      simp at hx
      exact ⟨b, by simp, hx ▸ hab⟩
    | cons n3 ns =>
      obtain ⟨p3, ps, rfl⟩ : ∃ p3 ps, p2 = p3 :: ps := by
        cases htail; exact ⟨_, _, rfl⟩
      obtain ⟨y, hy, hr⟩ := ih x (by simpa using hx)
      exact ⟨y, by simpa using hy, hr⟩

/-- `getLast? = some` gives the snoc decomposition. -/
theorem getLast_decomp {α : Type} :
    ∀ (l : List α) (y : α), l.getLast? = some y → ∃ l2, l = l2 ++ [y] := by
  intro l
  induction l with
  | nil => intro y hy; simp at hy
  | cons x xs ih =>
    intro y hy
    cases xs with
    | nil =>
      simp at hy
      exact ⟨[], by simp [hy]⟩
    | cons a rest =>
      rw [List.getLast?_cons_cons] at hy
      obtain ⟨l2, hl2⟩ := ih y hy
      exact ⟨x :: l2, by simp [hl2]⟩

/-- A successful label match at the head of `l` consumes a block `w`
that starts and ends with non-whitespace characters and matches again in
front of any extension. -/
theorem tryLabelAt_decomp (l r : List Char) (h : tryLabelAt l = some r) :
    ∃ w, l = w ++ r ∧
      (∃ ch tw, w = ch :: tw ∧ jsIsWS ch = false) ∧
      (∃ wl tw2, w = tw2 ++ [wl] ∧ jsIsWS wl = false) ∧
      ∀ ext, tryLabelAt (w ++ ext) = some ext := by
  rw [tryLabelAt] at h
  cases hm : matchCI "difficulty".data l with
  | none => rw [hm] at h; exact absurd h (by simp)
  | some r1 =>
    rw [hm] at h
    cases r1 with
    | nil => exact absurd h (by simp)
    | cons c rest =>
      dsimp only at h
      by_cases hws : jsIsWS c
      · rw [if_pos hws] at h
        obtain ⟨p1, hp1, hf1⟩ := matchCI_decomp _ l (c :: rest) hm
        obtain ⟨p2, hp2, hf2⟩ := matchCI_decomp _ (rest.dropWhile jsIsWS) r h
        -- shape of p1: nonempty with a non-whitespace head
        obtain ⟨b, bs, rfl, hb⟩ : ∃ b bs, p1 = b :: bs ∧ 'd' = b.toLower := by
          cases hf1 with
          | cons hab htail => exact ⟨_, _, rfl, hab⟩
        have hbws : jsIsWS b = false := by
          cases hcb : jsIsWS b
          · rfl
          · exact absurd hb.symm (ws_toLower_ne b hcb).1
        -- shape of p2: nonempty with a non-whitespace head and tail
        obtain ⟨v0, vs, rfl, hv⟩ : ∃ v0 vs, p2 = v0 :: vs ∧ 'v' = v0.toLower := by
          cases hf2 with
          | cons hab htail => exact ⟨_, _, rfl, hab⟩
        have hvws : jsIsWS v0 = false := by
          cases hcv : jsIsWS v0
          · rfl
          · exact absurd hv.symm (ws_toLower_ne v0 hcv).2.1
        obtain ⟨y, hy, hry⟩ :=
          forall2_getLast "value:".data (v0 :: vs) hf2 ':' (by decide)
        have hyws : jsIsWS y = false := by
          cases hcy : jsIsWS y
          · rfl
          · exact absurd hry.symm (ws_toLower_ne y hcy).2.2
        obtain ⟨p2f, hp2f⟩ := getLast_decomp (v0 :: vs) y hy
        set wsmid := rest.takeWhile jsIsWS with hwsmid
        have hrest : rest = wsmid ++ (v0 :: vs) ++ r := by
          rw [hwsmid]
          conv_lhs => rw [← List.takeWhile_append_dropWhile (p := jsIsWS) (l := rest)]
          rw [hp2, List.append_assoc]
        refine ⟨(b :: bs) ++ c :: (wsmid ++ (v0 :: vs)), ?_, ?_, ?_, ?_⟩
        · rw [hp1, hrest]
          simp [List.append_assoc]
        · exact ⟨b, _, rfl, hbws⟩
        · refine ⟨y, (b :: bs) ++ c :: (wsmid ++ p2f), ?_, hyws⟩
          rw [hp2f]
          simp [List.append_assoc]
        · intro ext
          have hass : ((b :: bs) ++ c :: (wsmid ++ (v0 :: vs))) ++ ext =
              (b :: bs) ++ (c :: (wsmid ++ ((v0 :: vs) ++ ext))) := by
            simp [List.append_assoc]
          rw [hass, tryLabelAt,
            matchCI_ext "difficulty".data (b :: bs) hf1 (c :: (wsmid ++ ((v0 :: vs) ++ ext)))]
          dsimp only
          rw [if_pos hws]
          have hdw : (wsmid ++ ((v0 :: vs) ++ ext)).dropWhile jsIsWS =
              (v0 :: vs) ++ ext := by
            rw [List.cons_append, dropWhile_append_head_false jsIsWS wsmid v0 (vs ++ ext) hvws]
            have : wsmid.dropWhile jsIsWS = [] := by
              rw [List.dropWhile_eq_nil_iff]
              intro x hx
              exact mem_takeWhile_pred jsIsWS rest x (hwsmid ▸ hx)
            simp [this]
          rw [hdw, matchCI_ext "value:".data (v0 :: vs) hf2 ext]
      · rw [if_neg hws] at h
        exact absurd h (by simp)

/-- A label occurrence anywhere makes the search succeed. -/
theorem labelSearch_of_suffix :
    ∀ (u v : List Char), (tryLabelAt v).isSome → labelSearch (u ++ v) = true := by
  intro u
  induction u with
  | nil =>
    intro v hv
    cases v with
    | nil => simp [tryLabelAt, matchCI] at hv
    | cons c cs => simp [labelSearch, hv]
  | cons a u2 ih =>
    intro v hv
    simp only [List.cons_append, labelSearch, Bool.or_eq_true]
    exact Or.inr (ih v hv)

/-- A successful capture search contains a label occurrence. -/
theorem diffCapture_to_tryLabel :
    ∀ (t cap : List Char), diffCapture t = some cap →
      ∃ u v r, t = u ++ v ∧ tryLabelAt v = some r := by
  intro t
  induction t with
  | nil => intro cap h; simp [diffCapture] at h
  | cons c cs ih =>
    intro cap h
    rw [diffCapture] at h
    cases hd : tryDiffAt (c :: cs) with
    | some cap2 =>
      rw [tryDiffAt] at hd
      cases hl : tryLabelAt (c :: cs) with
      | none => rw [hl] at hd; exact absurd hd (by simp)
      | some r2 => exact ⟨[], c :: cs, r2, by simp, hl⟩
    | none =>
      rw [hd] at h
      obtain ⟨u, v, r, huv, hr⟩ := ih cap h
      exact ⟨c :: u, v, r, by simp [huv], hr⟩

/-- Dropping trailing whitespace walks over a block ending in a
non-whitespace character. -/
theorem dropTrailingWS_append (a : List Char) (wl : Char) (z : List Char)
    (hwl : jsIsWS wl = false) :
    dropTrailingWS ((a ++ [wl]) ++ z) = (a ++ [wl]) ++ dropTrailingWS z := by
  unfold dropTrailingWS
  have hrev : ((a ++ [wl]) ++ z).reverse = z.reverse ++ wl :: a.reverse := by
    simp
  rw [hrev, dropWhile_append_head_false jsIsWS z.reverse wl a.reverse hwl]
  simp

/-- The heart of C3's absence argument: a content element whose text
matches the full difficulty pattern has the label in its trimmed text as
well, so the commentary filter skips it. -/
theorem labelSearch_trim (t cap : List Char) (h : diffCapture t = some cap) :
    labelSearch (jsTrimL t) = true := by
  obtain ⟨u, v, r, rfl, hv⟩ := diffCapture_to_tryLabel t cap h
  obtain ⟨w, rfl, ⟨ch, tw, rfl, hch⟩, ⟨wl, tw2, hw2, hwl⟩, hext⟩ :=
    tryLabelAt_decomp v r hv
  have hfront : (u ++ ((ch :: tw) ++ r)).dropWhile jsIsWS =
      u.dropWhile jsIsWS ++ (ch :: (tw ++ r)) := by
    have h1 : u ++ ((ch :: tw) ++ r) = u ++ (ch :: (tw ++ r)) := by simp
    rw [h1, dropWhile_append_head_false jsIsWS u ch (tw ++ r) hch]
  have h2 : u.dropWhile jsIsWS ++ (ch :: (tw ++ r)) =
      ((u.dropWhile jsIsWS ++ tw2) ++ [wl]) ++ r := by
    calc u.dropWhile jsIsWS ++ (ch :: (tw ++ r))
        = u.dropWhile jsIsWS ++ ((ch :: tw) ++ r) := by simp
      _ = u.dropWhile jsIsWS ++ ((tw2 ++ [wl]) ++ r) := by rw [hw2]
      _ = ((u.dropWhile jsIsWS ++ tw2) ++ [wl]) ++ r := by simp [List.append_assoc]
  have hback : dropTrailingWS (u.dropWhile jsIsWS ++ (ch :: (tw ++ r))) =
      ((u.dropWhile jsIsWS ++ tw2) ++ [wl]) ++ dropTrailingWS r := by
    rw [h2, dropTrailingWS_append (u.dropWhile jsIsWS ++ tw2) wl r hwl]
  have hfin : ((u.dropWhile jsIsWS ++ tw2) ++ [wl]) ++ dropTrailingWS r =
      u.dropWhile jsIsWS ++ ((ch :: tw) ++ dropTrailingWS r) := by
    rw [hw2]
    simp [List.append_assoc]
  unfold jsTrimL
  rw [hfront, hback, hfin]
  exact labelSearch_of_suffix (u.dropWhile jsIsWS)
    ((ch :: tw) ++ dropTrailingWS r)
    (by rw [hext (dropTrailingWS r)]; rfl)

mutual

/-- No anchor of this node's subtree contains another anchor. -/
def nestFreeN : Html → Bool
  | .text _ => true
  | .elem t _ cs => (!(t == "a") || (anchorsL cs).isEmpty) && nestFreeL cs

/-- `nestFreeN` over a node list.  Parsed HTML always satisfies this:
the HTML parser never nests an anchor inside an anchor. -/
def nestFreeL : List Html → Bool
  | [] => true
  | n :: rest => nestFreeN n && nestFreeL rest

end

mutual

/-- Cleaning is the identity on an anchor-free node. -/
theorem cleanN_id (ex : List String) (n : Html) (h : anchorsN n = []) :
    cleanN ex n = n := by
  cases n with
  | text s => rfl
  | elem t attrs cs =>
    have hcs : anchorsL cs = [] := by
      by_cases hta : t == "a"
      · simp [anchorsN, hta] at h
      · simpa [anchorsN, hta] using h
    rw [cleanN, cleanL_id ex cs hcs]

/-- Cleaning is the identity on an anchor-free node list. -/
theorem cleanL_id (ex : List String) (l : List Html) (h : anchorsL l = []) :
    cleanL ex l = l := by
  cases l with
  | nil => rfl
  | cons n rest =>
    have hsplit : anchorsN n = [] ∧ anchorsL rest = [] := by
      have := h
      rw [anchorsL] at this
      exact List.append_eq_nil.mp this
    have hex : isExcludedAnchor ex n = false := by
      cases n with
      | text s => rfl
      | elem t attrs cs =>
        cases hta : (t == "a") with
        | true =>
          exfalso
          have := hsplit.1
          simp [anchorsN, hta] at this
        | false => simp [isExcludedAnchor, hta]
    rw [cleanL, if_neg (by simp [hex]), cleanN_id ex n hsplit.1,
      cleanL_id ex rest hsplit.2]

end

mutual

/-- On a nest-free kept node, cleaning removes exactly the excluded
anchors among the descendants. -/
theorem cleanAnchorsN (ex : List String) (n : Html)
    (hnf : nestFreeN n = true) (hk : isExcludedAnchor ex n = false) :
    anchorsN (cleanN ex n) =
      (anchorsN n).filter (fun a => !isExcludedAnchor ex a) := by
  cases n with
  | text s => rfl
  | elem t attrs cs =>
    have hnf2 := hnf
    rw [nestFreeN, Bool.and_eq_true] at hnf2
    by_cases hta : (t == "a") = true
    · have hcs : anchorsL cs = [] := by
        have := hnf2.1
        rw [hta] at this
        simpa using this
      rw [cleanN, cleanL_id ex cs hcs]
      simp only [anchorsN, hcs, hta, if_true, List.append_nil, List.filter]
      rw [hk]
      rfl
    · rw [cleanN]
      simp only [anchorsN, hta, Bool.false_eq_true, if_false, List.nil_append]
      exact cleanAnchorsL ex cs hnf2.2

/-- On a nest-free node list, cleaning removes exactly the excluded
anchors. -/
theorem cleanAnchorsL (ex : List String) (l : List Html)
    (hnf : nestFreeL l = true) :
    anchorsL (cleanL ex l) =
      (anchorsL l).filter (fun a => !isExcludedAnchor ex a) := by
  cases l with
  | nil => rfl
  | cons n rest =>
    have hnf2 := hnf
    rw [nestFreeL, Bool.and_eq_true] at hnf2
    cases hex : isExcludedAnchor ex n with
    | true =>
      obtain ⟨t, attrs, cs, rfl, hta⟩ :
          ∃ t attrs cs, n = Html.elem t attrs cs ∧ (t == "a") = true := by
        cases n with
        | text s => simp [isExcludedAnchor] at hex
        | elem t attrs cs =>
          refine ⟨t, attrs, cs, rfl, ?_⟩
          rw [isExcludedAnchor, Bool.and_eq_true, Bool.and_eq_true] at hex
          exact hex.1.1
      have hcs : anchorsL cs = [] := by
        have := hnf2.1
        rw [nestFreeN, Bool.and_eq_true, hta] at this
        simpa using this.1
      rw [cleanL, if_pos (by simp [hex])]
      simp only [anchorsL, anchorsN, hta, if_true, hcs, List.append_nil,
        List.filter_append, List.filter]
      rw [hex]
      simp only [Bool.not_true]
      exact cleanAnchorsL ex rest hnf2.2
    | false =>
      rw [cleanL, if_neg (by simp [hex])]
      simp only [anchorsL, List.filter_append]
      rw [cleanAnchorsN ex n hnf2.1 hex, cleanAnchorsL ex rest hnf2.2]

end

/-- Every commentary clone's source element has nonempty trimmed text
that does not contain the difficulty label; in particular the difficulty
element (whose trimmed text does contain the label, by
`labelSearch_trim`) never contributes a commentary clone. -/
theorem commentary_sources (ex : List String) :
    ∀ (l : List Html) (c : Html), c ∈ collectCommentaryAux ex l →
      ∃ e2, e2 ∈ l ∧ c = cleanN ex e2 ∧
        jsTrim (textContentN e2) ≠ "" ∧
        labelSearch (jsTrim (textContentN e2)).data = false := by
  intro l
  induction l with
  | nil => intro c hc; simp [collectCommentaryAux] at hc
  | cons e rest ih =>
    intro c hc
    rw [collectCommentaryAux] at hc
    by_cases hh : isHeadingNode e = true
    · simp [hh] at hc
    · rw [if_neg (by simp [hh])] at hc
      dsimp only at hc
      by_cases hcond : (jsTrim (textContentN e) != "" &&
          !labelSearch (jsTrim (textContentN e)).data) = true
      · rw [if_pos hcond] at hc
        have h12 := hcond
        simp only [Bool.and_eq_true] at h12
        obtain ⟨h1, h2⟩ := h12
        by_cases hkeep : (jsTrim (textContentN (cleanN ex e)) != "" ||
            hasKeepable (cleanN ex e)) = true
        · rw [if_pos hkeep] at hc
          rcases List.mem_cons.mp hc with rfl | hc2
          · exact ⟨e, List.mem_cons_self e rest, rfl,
              by simpa using h1, by simpa using h2⟩
          · obtain ⟨e2, he2, hrest⟩ := ih c hc2
            exact ⟨e2, List.mem_cons_of_mem e he2, hrest⟩
        · rw [if_neg hkeep] at hc
          obtain ⟨e2, he2, hrest⟩ := ih c hc
          exact ⟨e2, List.mem_cons_of_mem e he2, hrest⟩
      · rw [if_neg hcond] at hc
        obtain ⟨e2, he2, hrest⟩ := ih c hc
        exact ⟨e2, List.mem_cons_of_mem e he2, hrest⟩

/-! ### Claim C3: category-link removal from commentary -/

/-- A document whose difficulty element also holds a YouTube anchor,
with a second YouTube anchor (different href) in a later element. -/
def docSameElem : Html := Html.elem "body" []
  [Html.elem "h3" [] [Html.text "Level C by Y"],
   Html.elem "p" [] [Html.text "Difficulty value: 7 ",
                     aEl "https://youtube.com/first" "watch"],
   Html.elem "p" [] [Html.text "later ", aEl "https://youtube.com/second" "again"],
   pEl "tail."]

/-- The record `docSameElem` parses to: the same-element anchor is gone
from the commentary, the later same-category anchor survives
verbatim. -/
def recSameElem : LevelData :=
  { name := "Level C", publisher := "Y", difficulty := some (mkRat 7 1),
    youtubeUrl := some "https://youtube.com/first", gdBrowserUrl := none,
    commentary := "<p>later <a href=\"https://youtube.com/second\">again</a></p><p>tail.</p>" }

/-- C3: (i) on nest-free content (which parsed HTML always is), cleaning
removes exactly the anchors whose hrefs are in the collected excluded
set; (ii) the element containing the difficulty line never becomes a
commentary source, so its anchors are absent from the commentary HTML;
(iii) concretely, the category anchor co-located with the difficulty
line is absent from the serialized commentary while a same-category
anchor from a later, separate element appears in it verbatim. -/
theorem c3_same_element_link_removal :
    (∀ (ex : List String) (l : List Html), nestFreeL l = true →
      anchorsL (cleanL ex l) =
        (anchorsL l).filter (fun a => !isExcludedAnchor ex a))
    ∧ (∀ (ex : List String) (l : List Html) (c e : Html) (cap : List Char),
        c ∈ collectCommentaryAux ex l →
        diffCapture (textContentN e).data = some cap →
        ∃ e2, e2 ∈ l ∧ c = cleanN ex e2 ∧ e2 ≠ e ∧
          labelSearch (jsTrim (textContentN e2)).data = false)
    ∧ parseLevelDoc docSameElem = [recSameElem]
    ∧ strContains recSameElem.commentary
        "<a href=\"https://youtube.com/second\">again</a>" = true
    ∧ strContains recSameElem.commentary "youtube.com/first" = false := by
  refine ⟨fun ex l h => cleanAnchorsL ex l h, ?_, by decide, by decide, by decide⟩
  intro ex l c e cap hc hcap
  obtain ⟨e2, he2, hclone, hne, hfalse⟩ := commentary_sources ex l c hc
  refine ⟨e2, he2, hclone, ?_, hfalse⟩
  intro heq
  rw [heq] at hfalse
  have htrue : labelSearch (jsTrimL (textContentN e).data) = true :=
    labelSearch_trim (textContentN e).data cap hcap
  have hfalse2 : labelSearch (jsTrimL (textContentN e).data) = false := hfalse
  rw [htrue] at hfalse2
  exact absurd hfalse2 (by decide)

/-- Witness for C3's removal-exactness part at a concrete nest-free
element pair. -/
theorem c3_witness :
    anchorsL (cleanL ["https://youtube.com/first"]
      [Html.elem "p" [] [aEl "https://youtube.com/first" "watch",
                         aEl "https://youtube.com/second" "again"]]) =
      (anchorsL [Html.elem "p" [] [aEl "https://youtube.com/first" "watch",
                                   aEl "https://youtube.com/second" "again"]]).filter
        (fun a => !isExcludedAnchor ["https://youtube.com/first"] a) :=
  c3_same_element_link_removal.1 ["https://youtube.com/first"]
    [Html.elem "p" [] [aEl "https://youtube.com/first" "watch",
                       aEl "https://youtube.com/second" "again"]] (by decide)

end GDViz
